import Mathlib

/-!
Shallow embedding of the SystemCLI dashboard core (src/main.rs).

The program is a terminal dashboard: each loop iteration refreshes the
metrics provider, computes a memory percentage, folds per-interface
network counter deltas into aggregate download/upload byte counts,
renders four gauges, and then waits up to one second for an input
event, quitting on the character key q.

Modelling conventions:
  - Machine integers `u64`/`u16` are modelled as `Nat`; Rust
    `saturating_sub` on `u64` is exactly `Nat` subtraction.
  - `f64`/`f32` arithmetic is modelled over `ℚ`.  Where rounding can
    affect a result — the memory-percentage chain, whose u64 operands
    can exceed the 53-bit significand — every conversion and operation
    passes through `roundF64`, an explicit model of IEEE 754 binary64
    rounding (round to nearest, ties to even).  The throughput and cpu
    chains are kept as exact rationals: on every u64 input the float
    evaluation agrees with the exact one there (bytes / 1024 is exact
    below 2^53 and capped at the ceiling above it, the division by 10
    never moves the value across a truncation boundary, and the cpu
    sample is itself already a float that the program only casts).
    The two non-finite cases the program can hit (0.0/0.0 = NaN and
    x/0.0 = +inf for x > 0, both inside the memory percentage) are
    modelled by explicit case analysis with the Rust cast results
    (NaN as u16 = 0, +inf as u16 = 65535).
  - The `HashMap<String,(u64,u64)>` of previous network counters is
    modelled as a function `String → Option (ℕ × ℕ)`; `insert` is
    `Function.update`.
  - The event loop is modelled two ways: a one-step transition on a
    Running/Terminated state machine, and a recursive runner that
    threads a queue of pending input events through successive ticks
    (crossterm `event::poll` reports whether an event is pending and
    `event::read` pops exactly one).
-/

namespace SystemCli

/-- Semantics of the Rust cast `q as u16` for a finite `f64` value `q`:
truncation toward zero, saturating at the bounds of `u16`.  For
non-negative `q` truncation toward zero is the floor; every negative
value saturates to the lower bound 0, which `Int.toNat` also yields
(a negative value truncates to a non-positive integer, and the cast
then saturates at 0). -/
def castU16 (q : ℚ) : ℕ := min (Int.toNat ⌊q⌋) 65535

/-- Rounding of a rational to the nearest integer with ties broken to
the even neighbour — the rule IEEE 754 applies to the scaled
significand in its default rounding mode. -/
def rne (y : ℚ) : ℤ :=
  if y - ⌊y⌋ < 1/2 then ⌊y⌋
  else if 1/2 < y - ⌊y⌋ then ⌊y⌋ + 1
  else if 2 ∣ ⌊y⌋ then ⌊y⌋ else ⌊y⌋ + 1

/-- Rounding of a non-negative rational to the nearest IEEE 754
binary64 value (round to nearest, ties to even).  For positive `x` the
representable values around `x` form a grid of spacing `2^(e-52)` with
`e` the base-two logarithm of `x` rounded down; `x` is scaled onto
that grid, rounded to the nearest integer with ties to even, and
scaled back.  Non-positive inputs (only 0 arises in the program) map
to 0.  The magnitudes the program produces — u64 values and quotients
of them times 100 — lie far inside the normal range of binary64, so
overflow and subnormals need no modelling. -/
def roundF64 (x : ℚ) : ℚ :=
  if x ≤ 0 then 0
  else (rne (x / (2:ℚ) ^ (Int.log 2 x - 52)) : ℚ) * (2:ℚ) ^ (Int.log 2 x - 52)

/-- The Rust conversion `n as f64` for a `u64` value: rounds to the
nearest binary64 value, so values above `2^53` can move to a
neighbouring representable integer. -/
def toF64 (n : ℕ) : ℚ := roundF64 (n : ℚ)

/-- Embedding of line 37 of main.rs,
`let mem_percent = (used_mem as f64 / total_mem as f64 * 100.0) as u16`.
When `total_mem = 0` the Rust division is a float division by zero:
`0.0 / 0.0` is NaN and casts to 0, while `x / 0.0` for `x > 0` is
positive infinity and saturates to `u16::MAX = 65535` (the u64 to f64
conversion keeps positivity, so the case split on the raw values is
exact).  When `total_mem > 0` every step carries its binary64
rounding: both u64 operands are converted with `toF64`, the quotient
is rounded, and the product with the exactly representable constant
100.0 is rounded, before the truncating saturating cast. -/
def mem_percent (used_mem total_mem : ℕ) : ℕ :=
  if total_mem = 0 then
    if used_mem = 0 then 0 else 65535
  else
    castU16 (roundF64 (roundF64 (toF64 used_mem / toF64 total_mem) * 100))

/-- Embedding of line 70 of main.rs, `cpu_usage as u16`: the processor
gauge value handed to the renderer. -/
def cpu_gauge (cpu_usage : ℚ) : ℕ := castU16 cpu_usage

/-- Embedding of line 86 of main.rs,
`((download_speed as f64 / 1024.0).min(1000.0) / 10.0) as u16`. -/
def download_gauge (download_speed : ℕ) : ℕ :=
  castU16 (min ((download_speed : ℚ) / 1024) 1000 / 10)

/-- Embedding of line 96 of main.rs,
`((upload_speed as f64 / 1024.0).min(1000.0) / 10.0) as u16`. -/
def upload_gauge (upload_speed : ℕ) : ℕ :=
  castU16 (min ((upload_speed : ℚ) / 1024) 1000 / 10)

/-- One tick of sampled raw values (spec section 3): processor
utilization, memory used and total in bytes, and the aggregated
network deltas in bytes per tick. -/
structure Snapshot where
  cpu_percent : ℚ
  memory_used : ℕ
  memory_total : ℕ
  download_bytes : ℕ
  upload_bytes : ℕ

/-- The four integer gauge values handed to the renderer for one tick
(spec section 3). -/
structure DisplayGauges where
  cpu : ℕ
  memory : ℕ
  download : ℕ
  upload : ℕ
deriving DecidableEq

/-- The Normalizer of spec section 4.3: the four gauge computations of
main.rs applied to one Snapshot. -/
def normalize (s : Snapshot) : DisplayGauges where
  cpu := cpu_gauge s.cpu_percent
  memory := mem_percent s.memory_used s.memory_total
  download := download_gauge s.download_bytes
  upload := upload_gauge s.upload_bytes

/-- Cumulative counters reported for one network interface in one tick
(`data.received()`, `data.transmitted()` in main.rs). -/
structure NetData where
  received : ℕ
  transmitted : ℕ
deriving DecidableEq

/-- The `prev_network : HashMap<String, (u64, u64)>` of main.rs,
modelled extensionally. -/
def NetMap : Type := String → Option (ℕ × ℕ)

/-- The body of the network loop of main.rs (lines 43 to 51) for one
interface: read the stored baseline, defaulting to the currently
reported totals (`unwrap_or`), compute the saturating deltas, and
insert the reported totals as the new baseline.  Returns the updated
map and the pair of deltas.  This is the RateTracker update contract
of spec section 4.1. -/
def rateUpdate (prev_network : NetMap) (name : String) (data : NetData) :
    NetMap × ℕ × ℕ :=
  let prev := (prev_network name).getD (data.received, data.transmitted)
  (Function.update prev_network name (some (data.received, data.transmitted)),
   data.received - prev.1, data.transmitted - prev.2)

/-- The full network loop of main.rs (lines 42 to 52): iterate over the
interfaces reported this tick, threading the map left to right, and sum
the deltas into `download_speed` and `upload_speed`. -/
def tickNetwork (prev_network : NetMap) :
    List (String × NetData) → NetMap × ℕ × ℕ
  | [] => (prev_network, 0, 0)
  | (name, data) :: rest =>
    let u := rateUpdate prev_network name data
    let r := tickNetwork u.1 rest
    (r.1, u.2.1 + r.2.1, u.2.2 + r.2.2)

/-- Key codes of crossterm events, as far as the program inspects them:
a character key or anything else. -/
inductive KeyCode where
  | char (c : Char)
  | other
deriving DecidableEq

/-- Input events delivered by crossterm: a key event, a mouse event
(mouse capture is enabled), or any other event kind (resize, focus,
paste). -/
inductive Event where
  | key (code : KeyCode)
  | mouse
  | resize
deriving DecidableEq

/-- The quit test of main.rs (lines 100 to 106): a tick quits exactly
when an event was pending within the poll timeout, it is a key event,
and its code is `Char('q')`.  `none` models the poll timeout elapsing
with no pending event. -/
def isQuitEvent : Option Event → Bool
  | some (Event.key code) => code == KeyCode.char 'q'
  | some Event.mouse => false
  | some Event.resize => false
  | none => false

/-- Models `event::poll(timeout)` followed by `event::read()` on the
queue of pending input events: an empty queue means the timeout
elapses and no event is read; otherwise exactly the first pending
event is read and removed. -/
def pollRead : List Event → Option Event × List Event
  | [] => (none, [])
  | e :: rest => (some e, rest)

/-- Everything one loop iteration of main.rs produces that later
iterations can observe: the updated counter map, the two aggregate
deltas of the tick, the input events still pending, and whether the
iteration executed `break`. -/
structure TickResult where
  prev_network : NetMap
  download_speed : ℕ
  upload_speed : ℕ
  pending : List Event
  quit : Bool

/-- One iteration of the main loop (lines 29 to 107 of main.rs):
refresh and fold the network counters, render (no observable state),
then poll for at most one input event and test it for the quit key. -/
def tick (prev_network : NetMap) (report : List (String × NetData))
    (pending : List Event) : TickResult :=
  let net := tickNetwork prev_network report
  let polled := pollRead pending
  { prev_network := net.1
    download_speed := net.2.1
    upload_speed := net.2.2
    pending := polled.2
    quit := isQuitEvent polled.1 }

/-- The MainLoop state machine of spec section 4.4: `running` carries
the counter map; `terminated` is the state after `break`. -/
inductive MainState where
  | running (prev_network : NetMap)
  | terminated (prev_network : NetMap)

/-- One step of the MainLoop state machine: a terminated loop executes
nothing further (the Rust loop has been exited by `break`), and a
running loop performs the tick work and quits exactly on a pending
key event with code `Char('q')`. -/
def mainStep (st : MainState) (report : List (String × NetData))
    (input : Option Event) : MainState :=
  match st with
  | MainState.terminated m => MainState.terminated m
  | MainState.running m =>
    if isQuitEvent input then MainState.terminated (tickNetwork m report).1
    else MainState.running (tickNetwork m report).1

/-- Runs the main loop over a list of per-tick network reports,
threading the queue of pending input events across ticks.  Returns the
number of loop iterations executed and the final counter map.  The
recursion stops at the first iteration whose quit test succeeds,
exactly as `break` does; if the reports run out the loop would keep
running (the Rust loop is unbounded), so the count simply covers the
supplied ticks. -/
def runLoop (prev_network : NetMap) (pending : List Event) :
    List (List (String × NetData)) → ℕ × NetMap
  | [] => (0, prev_network)
  | report :: rest =>
    let t := tick prev_network report pending
    if t.quit then (1, t.prev_network)
    else
      let r := runLoop t.prev_network t.pending rest
      (r.1 + 1, r.2)

/-- Observable terminal side effects of main.rs, in program order:
setup (lines 18 to 20), one `terminal.draw` per iteration (line 54),
and the restoration sequence after the loop (lines 109 to 115). -/
inductive Effect where
  | enableRaw
  | enterAlt
  | enableMouse
  | renderFrame
  | disableRaw
  | leaveAlt
  | disableMouse
  | showCursor
deriving DecidableEq

/-- Outcome of one loop iteration, as far as control flow is
concerned: the draw and the poll both succeed and no quit key is read
(`tickContinue`); they succeed and the quit key is read (`tickQuit`);
`terminal.draw` returns `Err` (`drawErr`); or the draw succeeds and
`event::poll` or `event::read` returns `Err` (`pollErr`). -/
inductive TickOutcome where
  | tickContinue
  | tickQuit
  | drawErr
  | pollErr
deriving DecidableEq

/-- How a run of main.rs ends: `ok` via `break` and `Ok(())`, `fatal`
via a `?` operator propagating an error out of `main`, or `looping`
when the supplied outcomes are exhausted with the loop still running. -/
inductive MainResult where
  | ok
  | fatal
  | looping
deriving DecidableEq

/-- The loop of main.rs driven by a list of per-iteration outcomes:
the terminal effects it emits and how it ends.  An iteration whose
draw fails emits no frame and propagates the error; an iteration whose
poll fails emits its frame and propagates the error; a quit iteration
emits its frame and breaks. -/
def loopRun : List TickOutcome → List Effect × MainResult
  | [] => ([], MainResult.looping)
  | TickOutcome.tickContinue :: rest =>
    let r := loopRun rest
    (Effect.renderFrame :: r.1, r.2)
  | TickOutcome.tickQuit :: _ => ([Effect.renderFrame], MainResult.ok)
  | TickOutcome.drawErr :: _ => ([], MainResult.fatal)
  | TickOutcome.pollErr :: _ => ([Effect.renderFrame], MainResult.fatal)

/-- The whole of main.rs at the level of terminal effects: the setup
effects, then the loop, and then — only when the loop ended by
`break` — the restoration statements of lines 109 to 115.  A `?`
operator inside the loop returns from `main` at once, so on the fatal
path nothing after the loop executes. -/
def mainRun (ticks : List TickOutcome) : List Effect × MainResult :=
  let r := loopRun ticks
  match r.2 with
  | MainResult.ok =>
    ([Effect.enableRaw, Effect.enterAlt, Effect.enableMouse] ++ r.1 ++
      [Effect.disableRaw, Effect.leaveAlt, Effect.disableMouse,
        Effect.showCursor], MainResult.ok)
  | MainResult.fatal =>
    ([Effect.enableRaw, Effect.enterAlt, Effect.enableMouse] ++ r.1,
      MainResult.fatal)
  | MainResult.looping =>
    ([Effect.enableRaw, Effect.enterAlt, Effect.enableMouse] ++ r.1,
      MainResult.looping)

end SystemCli

namespace SystemCli

/-- Nearest-even rounding never goes below the floor. -/
theorem rne_floor_le (y : ℚ) : ⌊y⌋ ≤ rne y := by
  unfold rne
  split_ifs <;> omega

/-- Nearest-even rounding never goes above the ceiling. -/
theorem rne_le_ceil (y : ℚ) : rne y ≤ ⌈y⌉ := by
  have hfy : (⌊y⌋ : ℚ) ≤ y := Int.floor_le y
  have hy : y ≤ ⌈y⌉ := Int.le_ceil y
  unfold rne
  split_ifs with h1 h2 h3
  · exact Int.floor_le_ceil y
  · have hlt : (⌊y⌋ : ℚ) < ⌈y⌉ := by linarith
    have : ⌊y⌋ < ⌈y⌉ := by exact_mod_cast hlt
    omega
  · exact Int.floor_le_ceil y
  · have h4 : y - ⌊y⌋ = 1/2 := by linarith
    have hlt : (⌊y⌋ : ℚ) < ⌈y⌉ := by linarith
    have : ⌊y⌋ < ⌈y⌉ := by exact_mod_cast hlt
    omega

/-- Integers are fixed points of nearest-even rounding. -/
theorem rne_intCast (n : ℤ) : rne (n : ℚ) = n := by
  unfold rne
  rw [Int.floor_intCast, if_pos]
  norm_num

/-- Nearest-even rounding is monotone. -/
theorem rne_mono {y z : ℚ} (h : y ≤ z) : rne y ≤ rne z := by
  have hf : ⌊y⌋ ≤ ⌊z⌋ := Int.floor_le_floor h
  rcases lt_or_eq_of_le hf with hlt | heq
  · have h1 : rne y ≤ ⌊y⌋ + 1 := by
      have h2 := rne_le_ceil y
      have h3 : ⌈y⌉ ≤ ⌊y⌋ + 1 := Int.ceil_le_floor_add_one y
      omega
    have h2 := rne_floor_le z
    omega
  · have hyf : (⌊y⌋ : ℚ) = (⌊z⌋ : ℚ) := by exact_mod_cast heq
    unfold rne
    rw [← heq]
    split_ifs <;> first | omega | linarith

/-- The base-two logarithm of a positive rational is characterised by
the sandwich of adjacent powers of two. -/
theorem log2_unique (x : ℚ) (n : ℤ) (hx : 0 < x) (h1 : (2:ℚ)^n ≤ x)
    (h2 : x < (2:ℚ)^(n+1)) : Int.log 2 x = n := by
  have hb : (1:ℚ) < 2 := by norm_num
  have ha := Int.zpow_log_le_self (b := 2) (R := ℚ) (by norm_num) hx
  have hb2 := Int.lt_zpow_succ_log_self (b := 2) (R := ℚ) (by norm_num) x
  have c1 : (2:ℚ) ^ (Int.log 2 x) < (2:ℚ) ^ (n+1) := lt_of_le_of_lt ha h2
  have c2 : (2:ℚ) ^ n < (2:ℚ) ^ (Int.log 2 x + 1) := lt_of_le_of_lt h1 hb2
  have d1 : Int.log 2 x < n + 1 := (zpow_lt_zpow_iff_right₀ hb).mp c1
  have d2 : n < Int.log 2 x + 1 := (zpow_lt_zpow_iff_right₀ hb).mp c2
  omega

/-- Powers of two combine by adding exponents. -/
theorem two_zpow_mul (a b : ℤ) : (2:ℚ)^a * (2:ℚ)^b = (2:ℚ)^(a+b) :=
  (zpow_add₀ (by norm_num) a b).symm

/-- Binary64 rounding never produces a negative value. -/
theorem roundF64_nonneg (x : ℚ) : 0 ≤ roundF64 x := by
  unfold roundF64
  split_ifs with h
  · exact le_refl 0
  · push_neg at h
    have hE : (0:ℚ) < (2:ℚ) ^ (Int.log 2 x - 52) := zpow_pos (by norm_num) _
    have hy : 0 ≤ x / (2:ℚ) ^ (Int.log 2 x - 52) := le_of_lt (div_pos h hE)
    have hfl : (0:ℤ) ≤ ⌊x / (2:ℚ) ^ (Int.log 2 x - 52)⌋ := Int.floor_nonneg.mpr hy
    have hr : (0:ℤ) ≤ rne (x / (2:ℚ) ^ (Int.log 2 x - 52)) :=
      le_trans hfl (rne_floor_le _)
    have hrq : (0:ℚ) ≤ (rne (x / (2:ℚ) ^ (Int.log 2 x - 52)) : ℚ) := by
      exact_mod_cast hr
    exact mul_nonneg hrq (le_of_lt hE)

/-- Binary64 rounding keeps a positive value at or above the power of
two below it. -/
theorem two_zpow_le_roundF64 {x : ℚ} (hx : 0 < x) :
    (2:ℚ) ^ (Int.log 2 x) ≤ roundF64 x := by
  unfold roundF64
  rw [if_neg (not_le.mpr hx)]
  have hE : (0:ℚ) < (2:ℚ) ^ (Int.log 2 x - 52) := zpow_pos (by norm_num) _
  have hself : (2:ℚ) ^ (Int.log 2 x) ≤ x :=
    Int.zpow_log_le_self (b := 2) (R := ℚ) (by norm_num) hx
  have hdiv : (2:ℚ) ^ (52:ℤ) ≤ x / (2:ℚ) ^ (Int.log 2 x - 52) := by
    rw [le_div_iff₀ hE, two_zpow_mul]
    calc (2:ℚ) ^ (52 + (Int.log 2 x - 52)) = (2:ℚ) ^ (Int.log 2 x) := by
          congr 1
          omega
      _ ≤ x := hself
  have hfl : ((2:ℤ)^(52:ℕ)) ≤ ⌊x / (2:ℚ) ^ (Int.log 2 x - 52)⌋ := by
    apply Int.le_floor.mpr
    calc (((2:ℤ)^(52:ℕ) : ℤ) : ℚ) = (2:ℚ) ^ (52:ℤ) := by norm_num
      _ ≤ _ := hdiv
  have hr := le_trans hfl (rne_floor_le (x / (2:ℚ) ^ (Int.log 2 x - 52)))
  calc (2:ℚ) ^ (Int.log 2 x) = (2:ℚ) ^ (52:ℤ) * (2:ℚ) ^ (Int.log 2 x - 52) := by
        rw [two_zpow_mul]
        congr 1
        omega
    _ ≤ (rne (x / (2:ℚ) ^ (Int.log 2 x - 52)) : ℚ) * (2:ℚ) ^ (Int.log 2 x - 52) := by
        apply mul_le_mul_of_nonneg_right _ (le_of_lt hE)
        calc (2:ℚ) ^ (52:ℤ) = (((2:ℤ)^(52:ℕ) : ℤ) : ℚ) := by norm_num
          _ ≤ _ := by exact_mod_cast hr

/-- Binary64 rounding of a positive value is positive: the u64 to f64
conversion never collapses a nonzero counter to zero. -/
theorem roundF64_pos {x : ℚ} (hx : 0 < x) : 0 < roundF64 x :=
  lt_of_lt_of_le (zpow_pos (by norm_num) _) (two_zpow_le_roundF64 hx)

/-- Binary64 rounding keeps a value strictly inside its binade below
the next power of two (the bound is attained when rounding up). -/
theorem roundF64_le_two_zpow_succ {x : ℚ} (hx : 0 < x) :
    roundF64 x ≤ (2:ℚ) ^ (Int.log 2 x + 1) := by
  unfold roundF64
  rw [if_neg (not_le.mpr hx)]
  have hE : (0:ℚ) < (2:ℚ) ^ (Int.log 2 x - 52) := zpow_pos (by norm_num) _
  have hlt : x < (2:ℚ) ^ (Int.log 2 x + 1) :=
    Int.lt_zpow_succ_log_self (b := 2) (R := ℚ) (by norm_num) x
  have hdiv : x / (2:ℚ) ^ (Int.log 2 x - 52) ≤ (((2:ℤ)^(53:ℕ) : ℤ) : ℚ) := by
    rw [div_le_iff₀ hE]
    apply le_of_lt
    calc x < (2:ℚ) ^ (Int.log 2 x + 1) := hlt
      _ = (((2:ℤ)^(53:ℕ) : ℤ) : ℚ) * (2:ℚ) ^ (Int.log 2 x - 52) := by
          rw [show ((((2:ℤ)^(53:ℕ) : ℤ)) : ℚ) = (2:ℚ) ^ (53:ℤ) from by norm_num,
            two_zpow_mul]
          congr 1
          omega
  have hceil : ⌈x / (2:ℚ) ^ (Int.log 2 x - 52)⌉ ≤ (2:ℤ)^(53:ℕ) :=
    Int.ceil_le.mpr hdiv
  have hr := le_trans (rne_le_ceil (x / (2:ℚ) ^ (Int.log 2 x - 52))) hceil
  calc (rne (x / (2:ℚ) ^ (Int.log 2 x - 52)) : ℚ) * (2:ℚ) ^ (Int.log 2 x - 52)
      ≤ (((2:ℤ)^(53:ℕ) : ℤ) : ℚ) * (2:ℚ) ^ (Int.log 2 x - 52) := by
        apply mul_le_mul_of_nonneg_right _ (le_of_lt hE)
        exact_mod_cast hr
    _ = (2:ℚ) ^ (Int.log 2 x + 1) := by
        rw [show ((((2:ℤ)^(53:ℕ) : ℤ)) : ℚ) = (2:ℚ) ^ (53:ℤ) from by norm_num,
          two_zpow_mul]
        congr 1
        omega

/-- Binary64 rounding is monotone, as the IEEE standard requires. -/
theorem roundF64_mono {x y : ℚ} (h : x ≤ y) : roundF64 x ≤ roundF64 y := by
  by_cases hx : x ≤ 0
  · have hx0 : roundF64 x = 0 := by
      unfold roundF64
      rw [if_pos hx]
    rw [hx0]
    exact roundF64_nonneg y
  · push_neg at hx
    have hy : 0 < y := lt_of_lt_of_le hx h
    have hlog : Int.log 2 x ≤ Int.log 2 y := Int.log_mono_right hx h
    rcases lt_or_eq_of_le hlog with hlt | heq
    · calc roundF64 x ≤ (2:ℚ) ^ (Int.log 2 x + 1) := roundF64_le_two_zpow_succ hx
        _ ≤ (2:ℚ) ^ (Int.log 2 y) := zpow_le_zpow_right₀ (by norm_num) (by omega)
        _ ≤ roundF64 y := two_zpow_le_roundF64 hy
    · unfold roundF64
      rw [if_neg (not_le.mpr hx), if_neg (not_le.mpr hy), ← heq]
      have hE : (0:ℚ) < (2:ℚ) ^ (Int.log 2 x - 52) := zpow_pos (by norm_num) _
      have hdiv : x / (2:ℚ) ^ (Int.log 2 x - 52) ≤ y / (2:ℚ) ^ (Int.log 2 x - 52) := by
        gcongr
      have hr := rne_mono hdiv
      exact mul_le_mul_of_nonneg_right (by exact_mod_cast hr) (le_of_lt hE)

/-- Binary64 rounding respects a natural bound of at most 2^52: such a
bound is exactly representable and lies on every coarser grid, so
rounding cannot jump over it. -/
theorem roundF64_le_nat (x : ℚ) (c : ℕ) (hc : (c:ℚ) ≤ (2:ℚ)^(52:ℤ))
    (h : x ≤ c) : roundF64 x ≤ c := by
  by_cases hx : x ≤ 0
  · have hx0 : roundF64 x = 0 := by
      unfold roundF64
      rw [if_pos hx]
    rw [hx0]
    exact_mod_cast Nat.zero_le c
  · push_neg at hx
    have hz : Int.log 2 ((2:ℚ)^(52:ℤ)) = 52 :=
      log2_unique _ 52 (by positivity) (le_refl _)
        ((zpow_lt_zpow_iff_right₀ (by norm_num : (1:ℚ) < 2)).mpr (by omega))
    have he : Int.log 2 x ≤ 52 := by
      have h1 : x ≤ (2:ℚ)^(52:ℤ) := le_trans h hc
      have h2 := Int.log_mono_right (b := 2) hx h1
      rwa [hz] at h2
    unfold roundF64
    rw [if_neg (not_le.mpr hx)]
    have hE : (0:ℚ) < (2:ℚ) ^ (Int.log 2 x - 52) := zpow_pos (by norm_num) _
    have hkq : (((c : ℤ) * 2 ^ (52 - Int.log 2 x).toNat : ℤ) : ℚ)
        = (c:ℚ) / (2:ℚ) ^ (Int.log 2 x - 52) := by
      push_cast
      rw [← zpow_natCast (2:ℚ) (52 - Int.log 2 x).toNat,
        show (((52 - Int.log 2 x).toNat : ℤ)) = 52 - Int.log 2 x from by omega]
      rw [eq_div_iff (ne_of_gt hE), mul_assoc, two_zpow_mul]
      rw [show (52 - Int.log 2 x + (Int.log 2 x - 52) : ℤ) = 0 from by omega]
      simp
    have hceil : ⌈x / (2:ℚ) ^ (Int.log 2 x - 52)⌉ ≤ (c : ℤ) * 2 ^ (52 - Int.log 2 x).toNat := by
      apply Int.ceil_le.mpr
      rw [hkq]
      gcongr
    have hr := le_trans (rne_le_ceil (x / (2:ℚ) ^ (Int.log 2 x - 52))) hceil
    calc (rne (x / (2:ℚ) ^ (Int.log 2 x - 52)) : ℚ) * (2:ℚ) ^ (Int.log 2 x - 52)
        ≤ (((c : ℤ) * 2 ^ (52 - Int.log 2 x).toNat : ℤ) : ℚ) * (2:ℚ) ^ (Int.log 2 x - 52) := by
          apply mul_le_mul_of_nonneg_right _ (le_of_lt hE)
          exact_mod_cast hr
      _ = (c : ℚ) := by
          rw [hkq]
          field_simp

/-- A value already on the binary64 grid is a fixed point of the
rounding. -/
theorem roundF64_eq_self (x : ℚ) (e n : ℤ) (hx : 0 < x)
    (hlog : Int.log 2 x = e) (hn : x = (n : ℚ) * (2:ℚ) ^ (e - 52)) :
    roundF64 x = x := by
  have hEne : ((2:ℚ) ^ (e - 52)) ≠ 0 := by positivity
  unfold roundF64
  rw [if_neg (not_le.mpr hx), hlog,
    show x / (2:ℚ) ^ (e - 52) = (n : ℚ) from by rw [hn]; field_simp,
    rne_intCast]
  exact hn.symm

/-- A fraction strictly above one half rounds up to the next integer. -/
theorem rne_eq_add_one_of (y : ℚ) (n : ℤ) (hfl : ⌊y⌋ = n) (h : 1/2 < y - n) :
    rne y = n + 1 := by
  unfold rne
  rw [hfl, if_neg (not_lt.mpr (le_of_lt h)), if_pos h]

/-- Evaluation of binary64 rounding when the scaled value sits
strictly above the midpoint of its grid interval: the result is the
next grid point up. -/
theorem roundF64_eq_of_frac_gt (x : ℚ) (e n : ℤ) (hx : 0 < x)
    (hlog : Int.log 2 x = e) (hfl : ⌊x / (2:ℚ) ^ (e - 52)⌋ = n)
    (hfr : 1/2 < x / (2:ℚ) ^ (e - 52) - n) :
    roundF64 x = ((n + 1 : ℤ) : ℚ) * (2:ℚ) ^ (e - 52) := by
  unfold roundF64
  rw [if_neg (not_le.mpr hx), hlog, rne_eq_add_one_of _ _ hfl hfr]

/-- Casting a rational at most 100 yields at most 100: the floor is
monotone and the saturation can only lower the value. -/
theorem castU16_le_of_le {q : ℚ} (h : q ≤ 100) : castU16 q ≤ 100 := by
  have hf : ⌊q⌋ ≤ 100 := by
    have := Int.floor_le_floor h
    simpa using this
  have ht : Int.toNat ⌊q⌋ ≤ 100 := by omega
  exact le_trans (min_le_left _ _) ht

/-- Below the saturation bound the cast is exactly the floor. -/
theorem castU16_eq_toNat_floor {q : ℚ} (h : q ≤ 100) :
    castU16 q = Int.toNat ⌊q⌋ := by
  have hf : ⌊q⌋ ≤ 100 := by
    have := Int.floor_le_floor h
    simpa using this
  unfold castU16
  omega

/-- When used memory does not exceed total memory the memory gauge is
at most 100: the conversions preserve the order, the rounded quotient
stays at most the representable 1, and the rounded product stays at
most the representable 100. -/
theorem mem_percent_le_of_le {used total : ℕ} (h : used ≤ total) :
    mem_percent used total ≤ 100 := by
  unfold mem_percent
  by_cases h0 : total = 0
  · subst h0
    have hu : used = 0 := Nat.le_zero.mp h
    simp [hu]
  · rw [if_neg h0]
    apply castU16_le_of_le
    have hcast : (used : ℚ) ≤ (total : ℚ) := by exact_mod_cast h
    have hab : toF64 used ≤ toF64 total := roundF64_mono hcast
    have htpos : (0:ℚ) < (total : ℚ) := by
      exact_mod_cast Nat.pos_of_ne_zero h0
    have hbpos : 0 < toF64 total := roundF64_pos htpos
    have hq1 : toF64 used / toF64 total ≤ 1 := (div_le_one hbpos).mpr hab
    have hq : roundF64 (toF64 used / toF64 total) ≤ 1 := by
      have h1 := roundF64_le_nat (toF64 used / toF64 total) 1 (by norm_num)
        (by exact_mod_cast hq1)
      exact_mod_cast h1
    have hm : roundF64 (toF64 used / toF64 total) * 100 ≤ 100 := by
      have h2 := mul_le_mul_of_nonneg_right hq (by norm_num : (0:ℚ) ≤ 100)
      simpa using h2
    have h3 := roundF64_le_nat _ 100 (by norm_num) (by exact_mod_cast hm)
    exact_mod_cast h3

/-- The scaled throughput expression is at most 100 for every byte
count: the cap at 1000 acts before the division by 10. -/
theorem throughput_le (bytes : ℕ) :
    min ((bytes : ℚ) / 1024) 1000 / 10 ≤ 100 := by
  have h : min ((bytes : ℚ) / 1024) 1000 ≤ 1000 := min_le_right _ _
  linarith

/-- The download gauge is bounded by 100 for every byte count. -/
theorem download_gauge_le (bytes : ℕ) : download_gauge bytes ≤ 100 :=
  castU16_le_of_le (throughput_le bytes)

/-- The upload gauge is bounded by 100 for every byte count. -/
theorem upload_gauge_le (bytes : ℕ) : upload_gauge bytes ≤ 100 :=
  castU16_le_of_le (throughput_le bytes)

/-- The download gauge saturates exactly on the byte counts of at
least 1000 kilobytes per tick, that is 1024000 bytes. -/
theorem download_gauge_eq_100_iff (bytes : ℕ) :
    download_gauge bytes = 100 ↔ 1024000 ≤ bytes := by
  constructor
  · intro h
    by_contra hb
    push_neg at hb
    have hq : ((bytes : ℚ) / 1024) < 1000 := by
      rw [div_lt_iff₀ (by norm_num : (0:ℚ) < 1024)]
      have : (bytes : ℚ) < 1024000 := by exact_mod_cast hb
      linarith
    have hmin : min ((bytes : ℚ) / 1024) 1000 = (bytes : ℚ) / 1024 :=
      min_eq_left (le_of_lt hq)
    have hlt : min ((bytes : ℚ) / 1024) 1000 / 10 < 100 := by
      rw [hmin]
      linarith
    have hfl : ⌊min ((bytes : ℚ) / 1024) 1000 / 10⌋ < 100 :=
      Int.floor_lt.mpr (by exact_mod_cast hlt)
    have hle : download_gauge bytes ≤ 99 := by
      simp only [download_gauge, castU16]
      omega
    omega
  · intro h
    have hq : (1000 : ℚ) ≤ (bytes : ℚ) / 1024 := by
      rw [le_div_iff₀ (by norm_num : (0:ℚ) < 1024)]
      have : (1024000 : ℚ) ≤ (bytes : ℚ) := by exact_mod_cast h
      linarith
    have hmin : min ((bytes : ℚ) / 1024) 1000 = 1000 := min_eq_right hq
    simp only [download_gauge, castU16, hmin]
    norm_num
    decide

/-- Claim C1 counterexample: at the Snapshot with memory_total = 0 and
memory_used = 1 the memory gauge is 65535 (the saturating cast of the
positive-infinity float quotient), not within [0,100], refuting the
claim that all four gauge fields are within [0,100] for every input
Snapshot including memory_total = 0. -/
theorem gauges_bounded_cex :
    ¬ ((normalize (⟨0, 1, 0, 0, 0⟩ : Snapshot)).memory ≤ 100) := by
  decide

/-- Claim C1 (amended): for every Snapshot whose processor percentage
is at most 100 and whose used memory does not exceed its total memory,
all four gauge fields are within [0,100]; the download and upload
bounds need no hypothesis at all, holding for byte counts above the
1000 kilobyte ceiling as well. -/
theorem gauges_bounded (s : Snapshot) (hcpu : s.cpu_percent ≤ 100)
    (hmem : s.memory_used ≤ s.memory_total) :
    (normalize s).cpu ≤ 100 ∧ (normalize s).memory ≤ 100
    ∧ (normalize s).download ≤ 100 ∧ (normalize s).upload ≤ 100 :=
  ⟨castU16_le_of_le hcpu, mem_percent_le_of_le hmem,
    download_gauge_le s.download_bytes, upload_gauge_le s.upload_bytes⟩

/-- Witness for the amended claim C1 at a concrete Snapshot. -/
theorem gauges_bounded_witness :
    ((50:ℚ) ≤ 100 ∧ (4:ℕ) ≤ 8)
    ∧ ((normalize ⟨50, 4, 8, 2048000, 512⟩).cpu ≤ 100
      ∧ (normalize ⟨50, 4, 8, 2048000, 512⟩).memory ≤ 100
      ∧ (normalize ⟨50, 4, 8, 2048000, 512⟩).download ≤ 100
      ∧ (normalize ⟨50, 4, 8, 2048000, 512⟩).upload ≤ 100) :=
  ⟨⟨by decide, by decide⟩,
    gauges_bounded ⟨50, 4, 8, 2048000, 512⟩ (by decide) (by decide)⟩

/-- Claim C2 counterexample: the claim states that memory_total = 0
yields a memory gauge of 0, but at memory_used = 1, memory_total = 0
the program computes 1.0 / 0.0 * 100.0 = positive infinity, whose
u16 cast is 65535, not 0. -/
theorem mem_percent_cex : ¬ (mem_percent 1 0 = 0) := by decide

/-- Claim C2 (amended): the memory gauge is the truncating saturating
u16 cast of the binary64 evaluation of used / total * 100 — with the
u64 operands rounded to doubles and the quotient and product each
rounded — not the clamped exact rounding of the claim.  When total is
zero the float quotient is NaN (cast 0) for used = 0 and positive
infinity (cast 65535) for used positive, not 0 throughout.  Under
those roundings the gauge stays within [0,100] whenever used is at
most total, Scenario C still holds (8 GB used of 16 GB total gives
50), and the float evaluation genuinely departs from the exact
rational one: at used = 2^60 - 1, total = 2^60 the conversion of used
rounds up to 2^60, the program computes 100, yet the exact value of
used * 100 / total has floor 99. -/
theorem mem_percent_spec :
    mem_percent 8000000000 16000000000 = 50
    ∧ mem_percent 0 0 = 0
    ∧ (∀ used, 0 < used → mem_percent used 0 = 65535)
    ∧ (∀ used total : ℕ, used ≤ total → mem_percent used total ≤ 100)
    ∧ mem_percent 1152921504606846975 1152921504606846976 = 100
    ∧ ⌊(1152921504606846975 : ℚ) * 100 / 1152921504606846976⌋ = 99 := by
  refine ⟨?_, by decide, ?_, fun used total h => mem_percent_le_of_le h, ?_, by norm_num⟩
  · have ht8 : toF64 8000000000 = 8000000000 := by
      have hlog : Int.log 2 ((8000000000 : ℕ) : ℚ) = 32 :=
        log2_unique _ 32 (by norm_num) (by norm_num) (by norm_num)
      exact roundF64_eq_self _ 32 8388608000000000 (by norm_num) hlog (by norm_num)
    have ht16 : toF64 16000000000 = 16000000000 := by
      have hlog : Int.log 2 ((16000000000 : ℕ) : ℚ) = 33 :=
        log2_unique _ 33 (by norm_num) (by norm_num) (by norm_num)
      exact roundF64_eq_self _ 33 8388608000000000 (by norm_num) hlog (by norm_num)
    have hhalf : roundF64 ((8000000000:ℚ)/16000000000) = 1/2 := by
      rw [show (8000000000:ℚ)/16000000000 = 1/2 from by norm_num]
      have hlog : Int.log 2 ((1:ℚ)/2) = -1 :=
        log2_unique _ (-1) (by norm_num) (by norm_num) (by norm_num)
      exact roundF64_eq_self _ (-1) 4503599627370496 (by norm_num) hlog (by norm_num)
    have h50 : roundF64 ((1:ℚ)/2 * 100) = 50 := by
      rw [show (1:ℚ)/2 * 100 = 50 from by norm_num]
      have hlog : Int.log 2 (50:ℚ) = 5 :=
        log2_unique _ 5 (by norm_num) (by norm_num) (by norm_num)
      exact roundF64_eq_self _ 5 7036874417766400 (by norm_num) hlog (by norm_num)
    unfold mem_percent
    rw [if_neg (by norm_num), ht8, ht16, hhalf, h50]
    unfold castU16
    rw [show ⌊(50:ℚ)⌋ = 50 from by norm_num]
    decide
  · intro used hu
    simp [mem_percent, Nat.pos_iff_ne_zero.mp hu]
  · have htA : toF64 1152921504606846975 = 1152921504606846976 := by
      have hlog : Int.log 2 ((1152921504606846975 : ℕ) : ℚ) = 59 :=
        log2_unique _ 59 (by norm_num) (by norm_num) (by norm_num)
      have h := roundF64_eq_of_frac_gt ((1152921504606846975 : ℕ) : ℚ) 59
        9007199254740991 (by norm_num) hlog (by norm_num) (by norm_num)
      rw [toF64, h]
      norm_num
    have htB : toF64 1152921504606846976 = 1152921504606846976 := by
      have hlog : Int.log 2 ((1152921504606846976 : ℕ) : ℚ) = 60 :=
        log2_unique _ 60 (by norm_num) (by norm_num) (by norm_num)
      exact roundF64_eq_self _ 60 4503599627370496 (by norm_num) hlog (by norm_num)
    have hone : roundF64 ((1152921504606846976:ℚ)/1152921504606846976) = 1 := by
      rw [show (1152921504606846976:ℚ)/1152921504606846976 = 1 from by norm_num]
      have hlog : Int.log 2 (1:ℚ) = 0 :=
        log2_unique _ 0 (by norm_num) (by norm_num) (by norm_num)
      exact roundF64_eq_self _ 0 4503599627370496 (by norm_num) hlog (by norm_num)
    have h100 : roundF64 ((1:ℚ) * 100) = 100 := by
      rw [show (1:ℚ) * 100 = 100 from by norm_num]
      have hlog : Int.log 2 (100:ℚ) = 6 :=
        log2_unique _ 6 (by norm_num) (by norm_num) (by norm_num)
      exact roundF64_eq_self _ 6 7036874417766400 (by norm_num) hlog (by norm_num)
    unfold mem_percent
    rw [if_neg (by norm_num), htA, htB, hone, h100]
    unfold castU16
    rw [show ⌊(100:ℚ)⌋ = 100 from by norm_num]
    decide

/-- Witness for the amended claim C2: the zero-total hypothesis at
used 1 and the bound hypothesis at used 8 of total 16. -/
theorem mem_percent_spec_witness :
    (0 < 1 ∧ mem_percent 1 0 = 65535) ∧ (8 ≤ 16 ∧ mem_percent 8 16 ≤ 100) :=
  ⟨⟨by decide, mem_percent_spec.2.2.1 1 (by decide)⟩,
    ⟨by decide, mem_percent_spec.2.2.2.1 8 16 (by decide)⟩⟩

/-- Claim C5: for every byte count the download and upload gauges are
within [0,100]; the gauge saturates at 100 exactly for byte counts of
at least 1000 kilobytes per tick; the two gauges agree as functions;
and Scenario D holds: 2048000 bytes in one tick gives exactly 100. -/
theorem throughput_gauge_spec (bytes : ℕ) :
    download_gauge bytes ≤ 100
    ∧ upload_gauge bytes ≤ 100
    ∧ (download_gauge bytes = 100 ↔ 1024000 ≤ bytes)
    ∧ upload_gauge bytes = download_gauge bytes
    ∧ download_gauge 2048000 = 100 :=
  ⟨download_gauge_le bytes, upload_gauge_le bytes,
    download_gauge_eq_100_iff bytes, rfl,
    (download_gauge_eq_100_iff 2048000).mpr (by norm_num)⟩

/-- Witness for claim C5 at the Scenario D byte count. -/
theorem throughput_gauge_spec_witness :
    download_gauge 2048000 ≤ 100
    ∧ upload_gauge 2048000 ≤ 100
    ∧ (download_gauge 2048000 = 100 ↔ 1024000 ≤ 2048000)
    ∧ upload_gauge 2048000 = download_gauge 2048000
    ∧ download_gauge 2048000 = 100 :=
  throughput_gauge_spec 2048000

/-- Claim C6 counterexample: at cpu_percent = 73.6 the program
truncates to 73, while round(73.6) clamped to [0,100] is 74 — the cpu
gauge is the truncation of cpu_percent, not its rounding. -/
theorem cpu_gauge_cex :
    ¬ (cpu_gauge (736/10 : ℚ) = Int.toNat (min (round ((736:ℚ)/10)) 100)) := by
  have h1 : cpu_gauge (736/10 : ℚ) = 73 := by
    norm_num [cpu_gauge, castU16]
    decide
  have h2 : round ((736:ℚ)/10) = 74 := by norm_num [round_eq]
  rw [h1, h2]
  decide

/-- Claim C6 (amended): the cpu gauge is the truncating saturating u16
cast of cpu_percent — its floor for values in [0,100], with no clamp —
so it is at most 100 whenever cpu_percent is at most 100, and
Scenario B holds: cpu_percent = 73.4 gives exactly 73. -/
theorem cpu_gauge_spec :
    cpu_gauge (734/10 : ℚ) = 73
    ∧ (∀ q : ℚ, q ≤ 100 → cpu_gauge q ≤ 100)
    ∧ (∀ q : ℚ, q ≤ 100 → cpu_gauge q = Int.toNat ⌊q⌋) :=
  ⟨by
    norm_num [cpu_gauge, castU16]
    decide,
    fun _ h => castU16_le_of_le h,
    fun _ h => castU16_eq_toNat_floor h⟩

/-- Witness for the amended claim C6 at cpu_percent = 50. -/
theorem cpu_gauge_spec_witness :
    (50:ℚ) ≤ 100 ∧ cpu_gauge 50 = Int.toNat ⌊(50:ℚ)⌋ :=
  ⟨by decide, cpu_gauge_spec.2.2 50 (by decide)⟩

end SystemCli

namespace SystemCli

/-- Saturating subtraction of naturals, viewed in the integers, is the
max of the signed difference with zero. -/
theorem natCast_sub_eq_max (a b : ℕ) :
    ((a - b : ℕ) : ℤ) = max ((a : ℤ) - (b : ℤ)) 0 := by omega

/-- The map component of a rate update is always the insertion of the
currently reported totals. -/
theorem rateUpdate_fst (m : NetMap) (name : String) (d : NetData) :
    (rateUpdate m name d).1 =
      Function.update m name (some (d.received, d.transmitted)) := rfl

/-- A rate update against a stored baseline replaces the baseline and
returns the saturating deltas. -/
theorem rateUpdate_known (m : NetMap) (name : String) (d : NetData)
    (pr pt : ℕ) (h : m name = some (pr, pt)) :
    rateUpdate m name d =
      (Function.update m name (some (d.received, d.transmitted)),
        d.received - pr, d.transmitted - pt) := by
  simp [rateUpdate, h]

/-- A rate update for an unseen interface seeds the baseline and
returns zero deltas. -/
theorem rateUpdate_new (m : NetMap) (name : String) (d : NetData)
    (h : m name = none) :
    rateUpdate m name d =
      (Function.update m name (some (d.received, d.transmitted)), 0, 0) := by
  simp [rateUpdate, h]

/-- Unfolding of the network fold on a cons cell. -/
theorem tickNetwork_cons (m : NetMap) (n : String) (d : NetData)
    (rest : List (String × NetData)) :
    tickNetwork m ((n, d) :: rest) =
      ((tickNetwork (rateUpdate m n d).1 rest).1,
        (rateUpdate m n d).2.1 + (tickNetwork (rateUpdate m n d).1 rest).2.1,
        (rateUpdate m n d).2.2 + (tickNetwork (rateUpdate m n d).1 rest).2.2) := rfl

/-- Claim C3: the RateTracker update contract.  On first observation of
an interface (no stored entry) the update stores the reported totals
and returns zero deltas regardless of their values; on a subsequent
call it returns the zero-floored differences max(0, reported - stored)
for both directions, replaces the stored baseline with the reported
totals, touches no other entry, and both returned deltas are
non-negative whatever the call history. -/
theorem rateUpdate_contract (m : NetMap) (name : String) (d : NetData) :
    (m name = none →
      rateUpdate m name d =
        (Function.update m name (some (d.received, d.transmitted)), 0, 0))
    ∧ (∀ pr pt, m name = some (pr, pt) →
        ((rateUpdate m name d).2.1 : ℤ) = max ((d.received : ℤ) - (pr : ℤ)) 0
        ∧ ((rateUpdate m name d).2.2 : ℤ) = max ((d.transmitted : ℤ) - (pt : ℤ)) 0
        ∧ (rateUpdate m name d).1 name = some (d.received, d.transmitted)
        ∧ (∀ x, x ≠ name → (rateUpdate m name d).1 x = m x))
    ∧ 0 ≤ ((rateUpdate m name d).2.1 : ℤ)
    ∧ 0 ≤ ((rateUpdate m name d).2.2 : ℤ) := by
  refine ⟨rateUpdate_new m name d, ?_, Int.natCast_nonneg _, Int.natCast_nonneg _⟩
  intro pr pt h
  have hu := rateUpdate_known m name d pr pt h
  refine ⟨?_, ?_, ?_, ?_⟩
  · rw [hu]
    exact natCast_sub_eq_max _ _
  · rw [hu]
    exact natCast_sub_eq_max _ _
  · rw [rateUpdate_fst]
    exact Function.update_same _ _ _
  · intro x hx
    rw [rateUpdate_fst]
    exact Function.update_noteq hx _ _

/-- Witness for claim C3: first observation of eth0 stores its totals
and returns zero deltas. -/
theorem rateUpdate_contract_witness :
    ((fun _ => none : NetMap) "eth0" = none)
    ∧ rateUpdate (fun _ => none) "eth0" ⟨1500, 250⟩ =
        (Function.update (fun _ => none : NetMap) "eth0" (some (1500, 250)), 0, 0) :=
  ⟨rfl, (rateUpdate_contract (fun _ => none) "eth0" ⟨1500, 250⟩).1 rfl⟩

/-- Interfaces not reported in a tick keep their stored entry
unchanged through the tick. -/
theorem tickNetwork_not_reported (m : NetMap)
    (report : List (String × NetData)) (name : String) :
    name ∉ report.map Prod.fst → (tickNetwork m report).1 name = m name := by
  induction report generalizing m with
  | nil => intro _; rfl
  | cons p rest ih =>
    intro h
    obtain ⟨n, d⟩ := p
    simp only [List.map_cons, List.mem_cons] at h
    push_neg at h
    rw [tickNetwork_cons]
    rw [ih _ h.2]
    rw [rateUpdate_fst]
    exact Function.update_noteq h.1 _ _

/-- Under distinct reported names, each reported interface ends the
tick with exactly its reported totals stored. -/
theorem tickNetwork_reported (m : NetMap)
    (report : List (String × NetData)) (name : String) (d : NetData) :
    (report.map Prod.fst).Nodup → (name, d) ∈ report →
    (tickNetwork m report).1 name = some (d.received, d.transmitted) := by
  induction report generalizing m with
  | nil =>
    intro _ hmem
    simp at hmem
  | cons p rest ih =>
    intro hnd hmem
    obtain ⟨n, d0⟩ := p
    simp only [List.map_cons, List.nodup_cons] at hnd
    rw [tickNetwork_cons]
    rcases List.mem_cons.mp hmem with heq | hmem2
    · have hp : name = n ∧ d = d0 := by simpa using heq
      obtain ⟨rfl, rfl⟩ := hp
      rw [tickNetwork_not_reported _ rest name hnd.1]
      rw [rateUpdate_fst]
      exact Function.update_same _ _ _
    · exact ih _ hnd.2 hmem2

/-- A tick never erases an entry: an interface with no entry after the
tick had none before it. -/
theorem tickNetwork_none (m : NetMap)
    (report : List (String × NetData)) (name : String) :
    (tickNetwork m report).1 name = none → m name = none := by
  induction report generalizing m with
  | nil => intro h; exact h
  | cons p rest ih =>
    intro h
    obtain ⟨n, d⟩ := p
    rw [tickNetwork_cons] at h
    have h2 := ih _ h
    rw [rateUpdate_fst] at h2
    by_cases hx : name = n
    · subst hx
      rw [Function.update_same] at h2
      simp at h2
    · rwa [Function.update_noteq hx] at h2

/-- Claim C9: frame condition of the tick on the counter map.  An
interface absent from the report keeps its entry unchanged; with
distinct reported names every reported interface ends the tick storing
exactly its currently reported totals; and no entry is ever removed
(an interface without an entry after the tick had none before). -/
theorem tickNetwork_frame (m : NetMap) (report : List (String × NetData))
    (name : String) :
    (name ∉ report.map Prod.fst → (tickNetwork m report).1 name = m name)
    ∧ (∀ d : NetData, (report.map Prod.fst).Nodup → (name, d) ∈ report →
        (tickNetwork m report).1 name = some (d.received, d.transmitted))
    ∧ ((tickNetwork m report).1 name = none → m name = none) :=
  ⟨tickNetwork_not_reported m report name,
    fun d hnd hmem => tickNetwork_reported m report name d hnd hmem,
    tickNetwork_none m report name⟩

/-- Witness for claim C9: the interface lo, absent from a one-entry
report, keeps its (empty) entry. -/
theorem tickNetwork_frame_witness :
    ("lo" ∉ ([("eth0", (⟨1500, 250⟩ : NetData))].map Prod.fst))
    ∧ (tickNetwork (fun _ => none) [("eth0", ⟨1500, 250⟩)]).1 "lo" =
        (fun _ => none : NetMap) "lo" :=
  ⟨by decide,
    (tickNetwork_frame (fun _ => none) [("eth0", ⟨1500, 250⟩)] "lo").1 (by decide)⟩

/-- A tick whose every reported interface already stores exactly its
reported totals produces zero aggregate deltas. -/
theorem tickNetwork_deltas_zero (m : NetMap)
    (report : List (String × NetData)) :
    (∀ p ∈ report, m p.1 = some (p.2.received, p.2.transmitted)) →
    (tickNetwork m report).2.1 = 0 ∧ (tickNetwork m report).2.2 = 0 := by
  induction report generalizing m with
  | nil => intro _; exact ⟨rfl, rfl⟩
  | cons p rest ih =>
    intro h
    obtain ⟨n, d⟩ := p
    have hn : m n = some (d.received, d.transmitted) :=
      h (n, d) (List.mem_cons_self _ _)
    have hupd := rateUpdate_known m n d _ _ hn
    have hrest : ∀ p ∈ rest,
        (rateUpdate m n d).1 p.1 = some (p.2.received, p.2.transmitted) := by
      intro p hp
      rw [rateUpdate_fst]
      by_cases hx : p.1 = n
      · have hm := h p (List.mem_cons_of_mem _ hp)
        rw [hx] at hm
        rw [hn] at hm
        rw [hx, Function.update_same]
        exact hm
      · rw [Function.update_noteq hx]
        exact h p (List.mem_cons_of_mem _ hp)
    obtain ⟨ih1, ih2⟩ := ih _ hrest
    have hd1 : (rateUpdate m n d).2.1 = 0 := by
      rw [hupd]
      exact Nat.sub_self _
    have hd2 : (rateUpdate m n d).2.2 = 0 := by
      rw [hupd]
      exact Nat.sub_self _
    rw [tickNetwork_cons]
    constructor
    · simp [hd1, ih1]
    · simp [hd2, ih2]

/-- Claim C8: idempotence of per-tick deltas.  If a tick is run twice
from the same report (each interface reported once), the second tick
returns zero aggregate download and upload deltas, and the
per-interface update of every reported interface returns (0, 0). -/
theorem second_tick_deltas_zero (m : NetMap)
    (report : List (String × NetData))
    (hnd : (report.map Prod.fst).Nodup) :
    (tickNetwork (tickNetwork m report).1 report).2.1 = 0
    ∧ (tickNetwork (tickNetwork m report).1 report).2.2 = 0
    ∧ ∀ p ∈ report,
        (rateUpdate (tickNetwork m report).1 p.1 p.2).2 = (0, 0) := by
  have hstable : ∀ p ∈ report,
      (tickNetwork m report).1 p.1 = some (p.2.received, p.2.transmitted) := by
    intro p hp
    exact tickNetwork_reported m report p.1 p.2 hnd (by rw [Prod.mk.eta]; exact hp)
  obtain ⟨h1, h2⟩ := tickNetwork_deltas_zero (tickNetwork m report).1 report hstable
  refine ⟨h1, h2, ?_⟩
  intro p hp
  rw [rateUpdate_known _ _ _ _ _ (hstable p hp)]
  simp

/-- Witness for claim C8 on a concrete two-interface report. -/
theorem second_tick_deltas_zero_witness :
    (([("eth0", (⟨1000, 200⟩ : NetData)), ("wlan0", ⟨7, 9⟩)].map Prod.fst).Nodup)
    ∧ ((tickNetwork
          (tickNetwork (fun _ => none)
            [("eth0", ⟨1000, 200⟩), ("wlan0", ⟨7, 9⟩)]).1
          [("eth0", ⟨1000, 200⟩), ("wlan0", ⟨7, 9⟩)]).2.1 = 0
      ∧ (tickNetwork
          (tickNetwork (fun _ => none)
            [("eth0", ⟨1000, 200⟩), ("wlan0", ⟨7, 9⟩)]).1
          [("eth0", ⟨1000, 200⟩), ("wlan0", ⟨7, 9⟩)]).2.2 = 0
      ∧ ∀ p ∈ [("eth0", (⟨1000, 200⟩ : NetData)), ("wlan0", ⟨7, 9⟩)],
          (rateUpdate
            (tickNetwork (fun _ => none)
              [("eth0", ⟨1000, 200⟩), ("wlan0", ⟨7, 9⟩)]).1
            p.1 p.2).2 = (0, 0)) :=
  ⟨by decide,
    second_tick_deltas_zero (fun _ => none)
      [("eth0", ⟨1000, 200⟩), ("wlan0", ⟨7, 9⟩)] (by decide)⟩

end SystemCli

namespace SystemCli

/-- Claim C7: main-loop quit semantics.  A pending key event for the
character q drives a running loop to the terminated state (after the
tick has applied its network update); a terminated loop executes
nothing further (it is absorbing); any non-quit input — another key,
a mouse event, or the timeout elapsing with no event — leaves the loop
running; and a run whose first pending event is the quit key executes
exactly one tick however many reports follow. -/
theorem mainStep_quit (m : NetMap) (report : List (String × NetData))
    (input : Option Event) (pending : List Event)
    (reports : List (List (String × NetData)))
    (h : isQuitEvent input = false) :
    mainStep (MainState.running m) report (some (Event.key (KeyCode.char 'q')))
      = MainState.terminated (tickNetwork m report).1
    ∧ mainStep (MainState.running m) report input
      = MainState.running (tickNetwork m report).1
    ∧ mainStep (MainState.terminated m) report input = MainState.terminated m
    ∧ (runLoop m (Event.key (KeyCode.char 'q') :: pending)
        (report :: reports)).1 = 1 := by
  refine ⟨?_, ?_, rfl, ?_⟩
  · simp [mainStep, isQuitEvent]
  · simp [mainStep, h]
  · simp [runLoop, tick, pollRead, isQuitEvent]

/-- Witness for claim C7 with a mouse event as the non-quit input. -/
theorem mainStep_quit_witness :
    isQuitEvent (some Event.mouse) = false
    ∧ (mainStep (MainState.running (fun _ => none)) []
          (some (Event.key (KeyCode.char 'q')))
        = MainState.terminated (tickNetwork (fun _ => none) []).1
      ∧ mainStep (MainState.running (fun _ => none)) [] (some Event.mouse)
        = MainState.running (tickNetwork (fun _ => none) []).1
      ∧ mainStep (MainState.terminated (fun _ => none)) [] (some Event.mouse)
        = MainState.terminated (fun _ => none)
      ∧ (runLoop (fun _ => none) [Event.key (KeyCode.char 'q')] [[]]).1 = 1) :=
  ⟨rfl, mainStep_quit (fun _ => none) [] (some Event.mouse) [] [] rfl⟩

/-- Claim C10: one pending input event at most is consumed per tick.
A tick facing a non-quit head event pops exactly that event, does not
quit, and leaves every other component of the loop state — counter map
and aggregate deltas — exactly as a tick with no pending event at all
leaves them; consequently a quit key queued behind a non-quit event
terminates the run at the second tick, not the first. -/
theorem tick_single_event (m : NetMap) (report r1 r2 : List (String × NetData))
    (e : Event) (pending : List Event)
    (reports : List (List (String × NetData)))
    (h : isQuitEvent (some e) = false) :
    (tick m report (e :: pending)).pending = pending
    ∧ (tick m report (e :: pending)).quit = false
    ∧ (tick m report (e :: pending)).prev_network
      = (tick m report []).prev_network
    ∧ (tick m report (e :: pending)).download_speed
      = (tick m report []).download_speed
    ∧ (tick m report (e :: pending)).upload_speed
      = (tick m report []).upload_speed
    ∧ (runLoop m [e, Event.key (KeyCode.char 'q')] (r1 :: r2 :: reports)).1 = 2 := by
  refine ⟨rfl, ?_, rfl, rfl, rfl, ?_⟩
  · simp [tick, pollRead, h]
  · have hq : isQuitEvent (some (Event.key (KeyCode.char 'q'))) = true := rfl
    simp [runLoop, tick, pollRead, h, hq]

/-- Witness for claim C10 with an uppercase Q key, which is not the
quit key. -/
theorem tick_single_event_witness :
    isQuitEvent (some (Event.key (KeyCode.char 'Q'))) = false
    ∧ ((tick (fun _ => none) [] [Event.key (KeyCode.char 'Q')]).pending = []
      ∧ (tick (fun _ => none) [] [Event.key (KeyCode.char 'Q')]).quit = false
      ∧ (tick (fun _ => none) [] [Event.key (KeyCode.char 'Q')]).prev_network
        = (tick (fun _ => none) [] []).prev_network
      ∧ (tick (fun _ => none) [] [Event.key (KeyCode.char 'Q')]).download_speed
        = (tick (fun _ => none) [] []).download_speed
      ∧ (tick (fun _ => none) [] [Event.key (KeyCode.char 'Q')]).upload_speed
        = (tick (fun _ => none) [] []).upload_speed
      ∧ (runLoop (fun _ => none)
          [Event.key (KeyCode.char 'Q'), Event.key (KeyCode.char 'q')]
          [[], []]).1 = 2) :=
  ⟨rfl, tick_single_event (fun _ => none) [] [] [] (Event.key (KeyCode.char 'Q'))
    [] [] rfl⟩

/-- The loop itself only ever emits rendered frames: the restoration
effects come solely from the statements after the loop. -/
theorem loopRun_effects_render (ticks : List TickOutcome) :
    ∀ ef ∈ (loopRun ticks).1, ef = Effect.renderFrame := by
  induction ticks with
  | nil => intro ef h; simp [loopRun] at h
  | cons t rest ih =>
    intro ef h
    cases t with
    | tickContinue =>
      simp only [loopRun, List.mem_cons] at h
      rcases h with h | h
      · exact h
      · exact ih ef h
    | tickQuit =>
      simp [loopRun] at h
      exact h
    | drawErr =>
      simp [loopRun] at h
    | pollErr =>
      simp [loopRun] at h
      exact h

/-- Claim C4 counterexample: when the first frame draw fails, main
returns the error with no disableRaw and no leaveAlt among the emitted
effects — the terminal is not restored before the error is surfaced,
refuting the claim that the shutdown path is reached on fatal error. -/
theorem restore_on_error_cex :
    (mainRun [TickOutcome.drawErr]).2 = MainResult.fatal
    ∧ Effect.disableRaw ∉ (mainRun [TickOutcome.drawErr]).1
    ∧ Effect.leaveAlt ∉ (mainRun [TickOutcome.drawErr]).1 := by
  decide

/-- Claim C4 (amended): the terminal restoration statements run
exactly on the normal-quit path.  A run that ends ok contains the
disableRaw and leaveAlt effects; a run that ends fatally — a render or
input-polling error propagated by a question-mark operator — contains
neither, because the early return skips every statement after the
loop. -/
theorem restore_paths (ticks : List TickOutcome) :
    ((mainRun ticks).2 = MainResult.ok →
      Effect.disableRaw ∈ (mainRun ticks).1
      ∧ Effect.leaveAlt ∈ (mainRun ticks).1)
    ∧ ((mainRun ticks).2 = MainResult.fatal →
      Effect.disableRaw ∉ (mainRun ticks).1
      ∧ Effect.leaveAlt ∉ (mainRun ticks).1) := by
  have hr := loopRun_effects_render ticks
  constructor
  · intro hok
    rcases h2 : (loopRun ticks).2 with _ | _ | _
    · simp [mainRun, h2]
    · rw [mainRun] at hok
      rw [h2] at hok
      simp at hok
    · rw [mainRun] at hok
      rw [h2] at hok
      simp at hok
  · intro hfatal
    rcases h2 : (loopRun ticks).2 with _ | _ | _
    · rw [mainRun] at hfatal
      rw [h2] at hfatal
      simp at hfatal
    · constructor
      · intro hmem
        simp only [mainRun, h2, List.mem_append, List.mem_cons,
          List.not_mem_nil] at hmem
        rcases hmem with (h | h | h | h) | h
        · exact absurd h (by decide)
        · exact absurd h (by decide)
        · exact absurd h (by decide)
        · exact h
        · exact absurd (hr _ h) (by decide)
      · intro hmem
        simp only [mainRun, h2, List.mem_append, List.mem_cons,
          List.not_mem_nil] at hmem
        rcases hmem with (h | h | h | h) | h
        · exact absurd h (by decide)
        · exact absurd h (by decide)
        · exact absurd h (by decide)
        · exact h
        · exact absurd (hr _ h) (by decide)
    · rw [mainRun] at hfatal
      rw [h2] at hfatal
      simp at hfatal

/-- Witness for the amended claim C4: a run that quits on its first
tick restores the terminal. -/
theorem restore_paths_witness :
    (mainRun [TickOutcome.tickQuit]).2 = MainResult.ok
    ∧ (Effect.disableRaw ∈ (mainRun [TickOutcome.tickQuit]).1
      ∧ Effect.leaveAlt ∈ (mainRun [TickOutcome.tickQuit]).1) :=
  ⟨by decide, (restore_paths [TickOutcome.tickQuit]).1 (by decide)⟩

end SystemCli
